import Mathlib

/-! Shallow embedding of the addons-path reconciliation and INI-patch routine
of the config task in tasks.py. A document is a list of characters; it is cut
into lines keeping the trailing newline of each line, mirroring Python
readlines, and the update loop, the insertion fallback and the path-set
computation are translated line by line from the source. -/

/-- Whitespace characters removed by Python str.strip with no argument. -/
def isWSChar (c : Char) : Bool :=
  c == ' ' || c == '\t' || c == '\n' || c == '\r' || c == '\x0b' || c == '\x0c'

/-- A line of the configuration document. -/
abbrev Line := List Char

/-- Drop whitespace on the left. -/
def lstripWS (l : Line) : Line := l.dropWhile isWSChar

/-- Drop whitespace on the right. -/
def rstripWS (l : Line) : Line := (l.reverse.dropWhile isWSChar).reverse

/-- Python line.strip(). -/
def pyStrip (l : Line) : Line := rstripWS (lstripWS l)

/-- The section tag looked up by the update loop. -/
def optTag : Line := "[options]".data

/-- The key tag looked up inside the options section. -/
def apTag : Line := "addons_path".data

/-- Test of tasks.py line 354: stripped.startswith of the options tag. -/
def isHeaderLine (line : Line) : Bool := optTag.isPrefixOf (pyStrip line)

/-- Test of tasks.py line 360: stripped.startswith of the addons_path tag. -/
def isAddonsLine (line : Line) : Bool := apTag.isPrefixOf (pyStrip line)

/-- Test of tasks.py line 364: stripped starts with an opening and ends with a
closing bracket. -/
def isSectionLine (line : Line) : Bool :=
  "[".data.isPrefixOf (pyStrip line) && "]".data.isSuffixOf (pyStrip line)

/-- The update loop of tasks.py lines 347-367: walk the lines, track whether
the scan is inside the options section, and substitute the new addons line for
every addons_path line found there; returns the rebuilt line list and the
updated flag. -/
def scanConf (n : Line) (inOpt : Bool) : List Line → List Line × Bool
  | [] => ([], false)
  | line :: rest =>
    if isHeaderLine line then
      (line :: (scanConf n true rest).1, (scanConf n true rest).2)
    else if inOpt && isAddonsLine line then
      (n :: (scanConf n true rest).1, true)
    else if inOpt && isSectionLine line then
      (line :: (scanConf n false rest).1, (scanConf n false rest).2)
    else
      (line :: (scanConf n inOpt rest).1, (scanConf n inOpt rest).2)

/-- The in-options state left by the update loop after a list of lines. -/
def optState (inOpt : Bool) : List Line → Bool
  | [] => inOpt
  | line :: rest =>
    if isHeaderLine line then optState true rest
    else if inOpt && isAddonsLine line then optState true rest
    else if inOpt && isSectionLine line then optState false rest
    else optState inOpt rest

/-- The fallback of tasks.py lines 370-375: insert the new line right after
the first line whose stripped form starts with the options tag; the flag tells
whether such a line was found. -/
def insertAfterOptions (n : Line) : List Line → List Line × Bool
  | [] => ([], false)
  | line :: rest =>
    if isHeaderLine line then (line :: n :: rest, true)
    else (line :: (insertAfterOptions n rest).1, (insertAfterOptions n rest).2)

/-- The block appended by tasks.py line 378 when no options header exists. -/
def optionsBlock : Line := "\n[options]\n".data

/-- Full rewrite of the line list, tasks.py lines 347-379: run the update
loop; if nothing was replaced, insert after an existing options header, or
else append a fresh options block and the new line. -/
def patchConfLines (n : Line) (lines : List Line) : List Line :=
  if (scanConf n false lines).2 then (scanConf n false lines).1
  else if (insertAfterOptions n (scanConf n false lines).1).2 then
    (insertAfterOptions n (scanConf n false lines).1).1
  else (scanConf n false lines).1 ++ [optionsBlock, n]

/-- Python str.join with a comma separator, tasks.py line 339. -/
def joinComma : List Line → Line
  | [] => []
  | [p] => p
  | p :: ps => p ++ ',' :: joinComma ps

/-- The new addons_path line of tasks.py line 339. -/
def addonsLine (P : List Line) : Line :=
  "addons_path = ".data ++ joinComma P ++ ['\n']

/-- Python readlines: cut a text into lines, each keeping its trailing
newline; a last fragment without a newline is kept as is. -/
def splitKeepEnds : List Char → List Line
  | [] => []
  | c :: cs =>
    if c = '\n' then ['\n'] :: splitKeepEnds cs
    else
      match splitKeepEnds cs with
      | [] => [[c]]
      | l :: ls => (c :: l) :: ls

/-- The text-level patch: read the lines, rewrite them, write them back,
tasks.py lines 342-382. -/
def patchAddonsPath (text : List Char) (P : List Line) : List Char :=
  (patchConfLines (addonsLine P) (splitKeepEnds text)).flatten

/-- Per-line replacement decisions of the update loop: true exactly at the
lines the loop substitutes. -/
def replFlags (inOpt : Bool) : List Line → List Bool
  | [] => []
  | line :: rest =>
    if isHeaderLine line then false :: replFlags true rest
    else if inOpt && isAddonsLine line then true :: replFlags true rest
    else if inOpt && isSectionLine line then false :: replFlags false rest
    else false :: replFlags inOpt rest

/-- Substitute the new line at the flagged positions, elsewhere keep the
original line. -/
def applyFlags (n : Line) (lines : List Line) (flags : List Bool) : List Line :=
  List.zipWith (fun l f => if f then n else l) lines flags

/-- A line that ends with a newline. -/
def EndsNL (l : Line) : Prop := ∃ m, l = m ++ ['\n']

/-- A proper line: ends with a newline and has no interior newline. -/
def IsNL (l : Line) : Prop := ∃ m, l = m ++ ['\n'] ∧ '\n' ∉ m

/-- Filesystem snapshot: path resolution and path existence, the two queries
the config task makes. -/
structure FS where
  res : String → String
  ex : String → Bool

/-- A POSIX-absolute path: one that starts with a slash. -/
def isAbsPath (r : String) : Bool :=
  match r.data with
  | '/' :: _ => true
  | _ => false

/-- Tasks.py lines 225-228: make a repo path absolute against the project
root when needed, then resolve it. -/
def resolveRepo (fs : FS) (root r : String) : String :=
  if isAbsPath r then fs.res r else fs.res (root ++ "/" ++ r)

/-- Tasks.py lines 206-210: the optional enterprise path, absent when the
configured value is missing or empty. -/
def entPath (fs : FS) (ent : Option String) : Option String :=
  match ent with
  | none => none
  | some e => if e = "" then none else some (fs.res e)

/-- Loop of tasks.py lines 224-243: keep the repos that exist, are not the
core path and were not seen before; the seen set keeps first occurrences. -/
def validRepos (fs : FS) (root odooP : String) (seen : List String) :
    List String → List String
  | [] => []
  | r :: rs =>
    let rp := resolveRepo fs root r
    if fs.ex rp = false then validRepos fs root odooP seen rs
    else if rp = odooP then validRepos fs root odooP seen rs
    else if seen.contains rp then validRepos fs root odooP seen rs
    else rp :: validRepos fs root odooP (rp :: seen) rs

/-- Tasks.py lines 334-337: the list joined into the addons_path value of
odoo.conf; the enterprise entry only needs to be present and existing. -/
def addonsPaths (fs : FS) (root server : String) (ent : Option String)
    (repos : List String) : List String :=
  (fs.res server ++ "/addons") ::
    ((match entPath fs ent with
      | some e => if fs.ex e then [e] else []
      | none => []) ++
      validRepos fs root (fs.res server) [] repos)

/-- Tasks.py lines 250-260: the list written under extraPaths of
pyrightconfig.json; the enterprise entry must also differ from the core path,
and the core path itself is appended at the end before the dump. -/
def analysisPaths (fs : FS) (root server : String) (ent : Option String)
    (repos : List String) : List String :=
  ((fs.res server ++ "/addons") ::
    ((match entPath fs ent with
      | some e => if fs.ex e && e != fs.res server then [e] else []
      | none => []) ++
      validRepos fs root (fs.res server) [] repos)) ++ [fs.res server]

/-- The config task, tasks.py lines 198-394: abort when the resolved core
path does not exist, otherwise produce the JSON list, the INI list and the
patched configuration text. -/
def configTask (fs : FS) (root server : String) (ent : Option String)
    (repos : List String) (ini : List Char) :
    Except String (List String × List String × List Char) :=
  if fs.ex (fs.res server) = false then
    Except.error ("Odoo path not found: " ++ fs.res server)
  else
    Except.ok (analysisPaths fs root server ent repos,
      addonsPaths fs root server ent repos,
      patchAddonsPath ini ((addonsPaths fs root server ent repos).map String.data))

/-- Spec-side first-occurrence deduplication with an explicit seen set. -/
def firstOcc (seen : List String) : List String → List String
  | [] => []
  | p :: ps =>
    if seen.contains p then firstOcc seen ps else p :: firstOcc (p :: seen) ps

/-- Resolved repo paths that exist and differ from the core path, in input
order and with duplicates kept. -/
def eligiblePaths (fs : FS) (root odooP : String) (repos : List String) :
    List String :=
  (repos.map (resolveRepo fs root)).filter (fun p => fs.ex p && p != odooP)

/-- A snapshot where resolution is the identity and every path exists. -/
def fsAll : FS := ⟨fun s => s, fun _ => true⟩

/-- A snapshot where resolution is the identity and no path exists. -/
def fsNone : FS := ⟨fun s => s, fun _ => false⟩

section PathSetLemmas

/-- Unfolding of the eligible-path filter over a cons cell. -/
theorem eligiblePaths_cons (fs : FS) (root odooP r : String) (rs : List String) :
    eligiblePaths fs root odooP (r :: rs)
      = if (fs.ex (resolveRepo fs root r) && resolveRepo fs root r != odooP) = true
        then resolveRepo fs root r :: eligiblePaths fs root odooP rs
        else eligiblePaths fs root odooP rs := by
  simp [eligiblePaths, List.filter_cons]

/-- Unfolding of the repo loop over a cons cell. -/
theorem validRepos_cons (fs : FS) (root odooP r : String) (seen rs : List String) :
    validRepos fs root odooP seen (r :: rs)
      = if fs.ex (resolveRepo fs root r) = false then validRepos fs root odooP seen rs
        else if resolveRepo fs root r = odooP then validRepos fs root odooP seen rs
        else if seen.contains (resolveRepo fs root r) then validRepos fs root odooP seen rs
        else resolveRepo fs root r ::
          validRepos fs root odooP (resolveRepo fs root r :: seen) rs := rfl

/-- Unfolding of firstOcc over a cons cell. -/
theorem firstOcc_cons (seen : List String) (p : String) (ps : List String) :
    firstOcc seen (p :: ps)
      = if seen.contains p then firstOcc seen ps
        else p :: firstOcc (p :: seen) ps := rfl

/-- The repo loop computes exactly the first-occurrence deduplication of the
eligible resolved paths. -/
theorem validRepos_eq_firstOcc (fs : FS) (root odooP : String) :
    ∀ (repos seen : List String),
      validRepos fs root odooP seen repos
        = firstOcc seen (eligiblePaths fs root odooP repos) := by
  intro repos
  induction repos with
  | nil => intro seen; rfl
  | cons r rs ih =>
    intro seen
    rw [validRepos_cons, eligiblePaths_cons]
    cases hex : fs.ex (resolveRepo fs root r) with
    | false =>
      rw [if_pos rfl, if_neg (by simp)]
      exact ih seen
    | true =>
      rw [if_neg (by simp)]
      by_cases hcore : resolveRepo fs root r = odooP
      · have hp : ((true : Bool) && (resolveRepo fs root r != odooP)) = false := by
          simp [hcore]
        simp only [hp, Bool.false_eq_true, if_false]
        rw [if_pos hcore]
        exact ih seen
      · have hp : ((true : Bool) && (resolveRepo fs root r != odooP)) = true := by
          simp [hcore]
        rw [if_neg hcore, if_pos hp, firstOcc_cons]
        cases hseen : seen.contains (resolveRepo fs root r) with
        | true =>
          rw [if_pos rfl, if_pos rfl]
          exact ih seen
        | false =>
          rw [if_neg (by simp), if_neg (by simp)]
          exact congrArg _ (ih _)

/-- A path produced by firstOcc was not in the seen set. -/
theorem firstOcc_not_seen :
    ∀ (l seen : List String) (p : String), p ∈ firstOcc seen l → p ∉ seen := by
  intro l
  induction l with
  | nil => intro seen p h; simp [firstOcc] at h
  | cons q qs ih =>
    intro seen p h
    by_cases hq : seen.contains q = true
    · simp only [firstOcc, hq, if_true] at h
      exact ih seen p h
    · have hq' : seen.contains q = false := by
        cases h2 : seen.contains q
        · rfl
        · exact absurd h2 hq
      simp only [firstOcc, hq', Bool.false_eq_true, if_false, List.mem_cons] at h
      rcases h with h | h
      · subst h
        intro hmem
        rw [List.contains_eq_any_beq] at hq'
        have : seen.any (p == ·) = true := by
          rw [List.any_eq_true]
          exact ⟨p, hmem, by simp⟩
        rw [this] at hq'
        cases hq'
      · have := ih (q :: seen) p h
        intro hmem
        exact this (List.mem_cons_of_mem q hmem)

/-- FirstOcc deduplication yields a list without duplicates. -/
theorem firstOcc_nodup : ∀ (l seen : List String), (firstOcc seen l).Nodup := by
  intro l
  induction l with
  | nil => intro seen; simp [firstOcc]
  | cons q qs ih =>
    intro seen
    by_cases hq : seen.contains q = true
    · simp only [firstOcc, hq, if_true]
      exact ih seen
    · have hq' : seen.contains q = false := by
        cases h2 : seen.contains q
        · rfl
        · exact absurd h2 hq
      simp only [firstOcc, hq', Bool.false_eq_true, if_false]
      refine List.nodup_cons.mpr ⟨?_, ih (q :: seen)⟩
      intro hmem
      exact firstOcc_not_seen qs (q :: seen) q hmem (List.mem_cons_self q seen)

end PathSetLemmas

/-- C6: any repo entry that resolves to exactly the core server path is
skipped, so the extra-repos list never contains the core server path, for any
seen set, snapshot and repo sequence. -/
theorem validRepos_no_core (fs : FS) (root odooP : String) :
    ∀ (repos seen : List String), odooP ∉ validRepos fs root odooP seen repos := by
  intro repos
  induction repos with
  | nil => intro seen h; simp [validRepos] at h
  | cons r rs ih =>
    intro seen h
    by_cases hex : fs.ex (resolveRepo fs root r) = false
    · rw [validRepos, if_pos hex] at h
      exact ih seen h
    · have hex' : fs.ex (resolveRepo fs root r) = true := by
        cases h2 : fs.ex (resolveRepo fs root r)
        · exact absurd h2 hex
        · rfl
      rw [validRepos] at h
      rw [if_neg (by simp [hex'])] at h
      by_cases hcore : resolveRepo fs root r = odooP
      · rw [if_pos hcore] at h
        exact ih seen h
      · rw [if_neg hcore] at h
        by_cases hseen : seen.contains (resolveRepo fs root r) = true
        · rw [if_pos hseen] at h
          exact ih seen h
        · rw [if_neg hseen, List.mem_cons] at h
          rcases h with h | h
          · exact hcore h.symm
          · exact ih _ h

/-- C2 counterexample: with every path existing and identity resolution, a
repo equal to the core addons subdirectory duplicates the first entry of the
addons path list. -/
theorem addonsPaths_dup_counterexample :
    addonsPaths fsAll "/r" "/odoo" none ["/odoo/addons"]
        = ["/odoo/addons", "/odoo/addons"]
    ∧ ¬ (addonsPaths fsAll "/r" "/odoo" none ["/odoo/addons"]).Nodup := by
  constructor
  · decide
  · intro h
    rw [show addonsPaths fsAll "/r" "/odoo" none ["/odoo/addons"]
        = ["/odoo/addons", "/odoo/addons"] from by decide] at h
    simp at h

/-- C2 amended: the extra-repos portion of the path list contains each
distinct eligible resolved path exactly once, in first-occurrence order; the
no-duplicate guarantee holds for that portion, not for the full list. -/
theorem validRepos_firstOcc_and_nodup (fs : FS) (root odooP : String)
    (repos : List String) :
    validRepos fs root odooP [] repos = firstOcc [] (eligiblePaths fs root odooP repos)
    ∧ (validRepos fs root odooP [] repos).Nodup := by
  refine ⟨validRepos_eq_firstOcc fs root odooP repos [], ?_⟩
  rw [validRepos_eq_firstOcc fs root odooP repos []]
  exact firstOcc_nodup _ _

/-- C4 counterexample: an enterprise path equal to the core server path, and
existing, is still appended to the INI addons list. -/
theorem addonsPaths_enterprise_counterexample :
    addonsPaths fsAll "/r" "/odoo" (some "/odoo") [] = ["/odoo/addons", "/odoo"]
    ∧ "/odoo" ∈ addonsPaths fsAll "/r" "/odoo" (some "/odoo") [] := by
  constructor
  · decide
  · rw [show addonsPaths fsAll "/r" "/odoo" (some "/odoo") []
        = ["/odoo/addons", "/odoo"] from by decide]
    simp

/-- C4 amended: the enterprise path is appended to the INI addons list
whenever it is provided, non-empty and existing, with no comparison against
the core server path; the distinctness check applies only to the IDE list. -/
theorem addonsPaths_enterprise (fs : FS) (root server e : String)
    (repos : List String) (he : e ≠ "") (hex : fs.ex (fs.res e) = true) :
    addonsPaths fs root server (some e) repos
      = (fs.res server ++ "/addons") :: fs.res e ::
          validRepos fs root (fs.res server) [] repos := by
  simp [addonsPaths, entPath, he, hex]

/-- Witness for the amended C4 theorem at an enterprise path equal to the
core path. -/
theorem addonsPaths_enterprise_witness :
    addonsPaths fsAll "/r" "/odoo" (some "/odoo") []
      = ("/odoo" ++ "/addons") :: "/odoo" :: validRepos fsAll "/r" "/odoo" [] [] :=
  addonsPaths_enterprise fsAll "/r" "/odoo" "/odoo" [] (by decide) (by decide)

/-- C7 counterexample: with no enterprise path and no repos, the JSON
extraPaths list carries the core server path appended at the end while the
INI addons list does not, so the two lists differ. -/
theorem analysis_ne_addons_counterexample :
    analysisPaths fsAll "/r" "/odoo" none [] = ["/odoo/addons", "/odoo"]
    ∧ addonsPaths fsAll "/r" "/odoo" none [] = ["/odoo/addons"]
    ∧ analysisPaths fsAll "/r" "/odoo" none []
        ≠ addonsPaths fsAll "/r" "/odoo" none [] := by
  refine ⟨by decide, by decide, ?_⟩
  intro h
  rw [show analysisPaths fsAll "/r" "/odoo" none [] = ["/odoo/addons", "/odoo"] from by decide,
    show addonsPaths fsAll "/r" "/odoo" none [] = ["/odoo/addons"] from by decide] at h
  simp at h

/-- C7 amended: whenever the enterprise entry passes the distinctness check
(or is absent), the JSON extraPaths list equals the INI addons list with the
core server path appended at the end. -/
theorem analysisPaths_eq_addonsPaths_append (fs : FS) (root server : String)
    (ent : Option String) (repos : List String)
    (hEnt : ∀ e, entPath fs ent = some e → fs.ex e = true → e ≠ fs.res server) :
    analysisPaths fs root server ent repos
      = addonsPaths fs root server ent repos ++ [fs.res server] := by
  cases hent : entPath fs ent with
  | none => simp [analysisPaths, addonsPaths, hent]
  | some e =>
    by_cases hex : fs.ex e = true
    · have hne : (e != fs.res server) = true := by
        simp [hEnt e hent hex]
      simp [analysisPaths, addonsPaths, hent, hex, hne]
    · have hex' : fs.ex e = false := by
        cases h2 : fs.ex e
        · rfl
        · exact absurd h2 hex
      simp [analysisPaths, addonsPaths, hent, hex']

/-- Witness for the amended C7 theorem with no enterprise path. -/
theorem analysisPaths_eq_addonsPaths_append_witness :
    analysisPaths fsAll "/r" "/odoo" none ["/x"]
      = addonsPaths fsAll "/r" "/odoo" none ["/x"] ++ ["/odoo"] :=
  analysisPaths_eq_addonsPaths_append fsAll "/r" "/odoo" none ["/x"]
    (fun e h => absurd h (by simp [entPath]))

/-- C8: when the resolved core server path does not exist, the config
operation aborts with the missing-path error and produces none of its
outputs. -/
theorem configTask_missing_core (fs : FS) (root server : String)
    (ent : Option String) (repos : List String) (ini : List Char)
    (h : fs.ex (fs.res server) = false) :
    configTask fs root server ent repos ini
      = Except.error ("Odoo path not found: " ++ fs.res server) := by
  simp [configTask, h]

/-- Witness for the C8 theorem on a snapshot where no path exists. -/
theorem configTask_missing_core_witness :
    configTask fsNone "/r" "/odoo" none [] []
      = Except.error ("Odoo path not found: " ++ "/odoo") :=
  configTask_missing_core fsNone "/r" "/odoo" none [] [] rfl

section SplitLemmas

/-- Splitting a non-empty text yields at least one line. -/
theorem splitKeepEnds_ne_nil (c : Char) (cs : List Char) :
    splitKeepEnds (c :: cs) ≠ [] := by
  simp only [splitKeepEnds]
  split
  · simp
  · split <;> simp

/-- Unfolding of the splitter at a newline. -/
theorem splitKeepEnds_cons_nl (cs : List Char) :
    splitKeepEnds ('\n' :: cs) = ['\n'] :: splitKeepEnds cs := by
  simp [splitKeepEnds]

/-- Unfolding of the splitter at an other character, empty remainder. -/
theorem splitKeepEnds_cons_of_nil {c : Char} {cs : List Char} (hc : ¬ c = '\n')
    (hs : splitKeepEnds cs = []) : splitKeepEnds (c :: cs) = [[c]] := by
  simp [splitKeepEnds, hc, hs]

/-- Unfolding of the splitter at an other character, non-empty remainder. -/
theorem splitKeepEnds_cons_of_cons {c : Char} {cs : List Char} {l : Line}
    {ls : List Line} (hc : ¬ c = '\n') (hs : splitKeepEnds cs = l :: ls) :
    splitKeepEnds (c :: cs) = (c :: l) :: ls := by
  simp [splitKeepEnds, hc, hs]

/-- Rejoining the split lines gives back the text. -/
theorem flatten_splitKeepEnds : ∀ t : List Char, (splitKeepEnds t).flatten = t := by
  intro t
  induction t with
  | nil => rfl
  | cons c cs ih =>
    by_cases hc : c = '\n'
    · subst hc
      rw [splitKeepEnds_cons_nl, List.flatten_cons, ih]
      rfl
    · cases hs : splitKeepEnds cs with
      | nil =>
        cases cs with
        | nil => rw [splitKeepEnds_cons_of_nil hc hs]; rfl
        | cons d ds => exact absurd hs (splitKeepEnds_ne_nil d ds)
      | cons l ls =>
        rw [hs, List.flatten_cons] at ih
        rw [splitKeepEnds_cons_of_cons hc hs, List.flatten_cons, List.cons_append, ih]

/-- A tail of a line ending in a newline still ends in a newline. -/
theorem endsNL_of_cons {c : Char} {l : List Char} (h : EndsNL (c :: l)) (hl : l ≠ []) :
    EndsNL l := by
  obtain ⟨m, hm⟩ := h
  cases m with
  | nil =>
    rw [List.nil_append] at hm
    cases hm
    exact absurd rfl hl
  | cons d m' =>
    rw [List.cons_append] at hm
    exact ⟨m', (List.cons.injEq _ _ _ _ ▸ hm).2⟩

/-- A singleton that ends in a newline is the newline itself. -/
theorem eq_nl_of_endsNL_single {c : Char} (h : EndsNL [c]) : c = '\n' := by
  obtain ⟨m, hm⟩ := h
  cases m with
  | nil => simpa using hm
  | cons d m'' =>
    rw [List.cons_append] at hm
    have := (List.cons.injEq _ _ _ _ ▸ hm).2
    exact absurd this.symm (by simp)

/-- Splitting distributes over appending after a text that ends in a
newline. -/
theorem splitKeepEnds_append :
    ∀ (l m : List Char), EndsNL l →
      splitKeepEnds (l ++ m) = splitKeepEnds l ++ splitKeepEnds m := by
  intro l
  induction l with
  | nil =>
    intro m h
    obtain ⟨m', hm⟩ := h
    exact absurd hm.symm (by simp)
  | cons c l' ih =>
    intro m h
    by_cases hl : l' = []
    · subst hl
      have hc : c = '\n' := eq_nl_of_endsNL_single h
      subst hc
      rw [List.cons_append, List.nil_append, splitKeepEnds_cons_nl, splitKeepEnds_cons_nl]
      rfl
    · have h' : EndsNL l' := endsNL_of_cons h hl
      by_cases hc : c = '\n'
      · subst hc
        rw [List.cons_append, splitKeepEnds_cons_nl, splitKeepEnds_cons_nl, ih m h']
        rfl
      · obtain ⟨h1, t1, hh⟩ : ∃ h1 t1, splitKeepEnds l' = h1 :: t1 := by
          cases hs : splitKeepEnds l' with
          | nil =>
            cases l' with
            | nil => exact absurd rfl hl
            | cons a b => exact absurd hs (splitKeepEnds_ne_nil a b)
          | cons a b => exact ⟨a, b, rfl⟩
        have hlm : splitKeepEnds (l' ++ m) = h1 :: (t1 ++ splitKeepEnds m) := by
          rw [ih m h', hh]
          rfl
        rw [List.cons_append, splitKeepEnds_cons_of_cons hc hlm,
          splitKeepEnds_cons_of_cons hc hh]
        rfl

/-- A newline-free line followed by a newline splits into itself alone. -/
theorem split_append_newline :
    ∀ (m : List Char), '\n' ∉ m → splitKeepEnds (m ++ ['\n']) = [m ++ ['\n']] := by
  intro m
  induction m with
  | nil => intro _; rw [List.nil_append, splitKeepEnds_cons_nl]; rfl
  | cons c m' ih =>
    intro h
    have hc : ¬ c = '\n' := by
      intro hc
      exact h (by rw [hc]; exact List.mem_cons_self _ _)
    have h' : '\n' ∉ m' := fun hm => h (List.mem_cons_of_mem _ hm)
    rw [List.cons_append, splitKeepEnds_cons_of_cons hc (ih h')]

/-- A proper line splits into itself alone. -/
theorem split_of_isNL (l : Line) (h : IsNL l) : splitKeepEnds l = [l] := by
  obtain ⟨m, hm, hnm⟩ := h
  rw [hm]
  exact split_append_newline m hnm

/-- Every line of a text that ends in a newline is a proper line. -/
theorem isNL_of_mem_split :
    ∀ (t : List Char), EndsNL t → ∀ l ∈ splitKeepEnds t, IsNL l := by
  intro t
  induction t with
  | nil => intro _ l hl; simp [splitKeepEnds] at hl
  | cons c cs ih =>
    intro h l hl
    by_cases hc : c = '\n'
    · subst hc
      rw [splitKeepEnds_cons_nl, List.mem_cons] at hl
      rcases hl with hl | hl
      · subst hl; exact ⟨[], rfl, by simp⟩
      · by_cases hcs : cs = []
        · rw [hcs] at hl; simp [splitKeepEnds] at hl
        · exact ih (endsNL_of_cons h hcs) l hl
    · have hcs : cs ≠ [] := by
        intro hcs
        rw [hcs] at h
        exact hc (eq_nl_of_endsNL_single h)
      have h' : EndsNL cs := endsNL_of_cons h hcs
      obtain ⟨h1, t1, hh⟩ : ∃ h1 t1, splitKeepEnds cs = h1 :: t1 := by
        cases hs : splitKeepEnds cs with
        | nil =>
          cases cs with
          | nil => exact absurd rfl hcs
          | cons a b => exact absurd hs (splitKeepEnds_ne_nil a b)
        | cons a b => exact ⟨a, b, rfl⟩
      rw [splitKeepEnds_cons_of_cons hc hh, List.mem_cons] at hl
      rcases hl with hl | hl
      · have hh1 : IsNL h1 := ih h' h1 (by rw [hh]; exact List.mem_cons_self _ _)
        obtain ⟨m1, hm1, hn1⟩ := hh1
        subst hl
        refine ⟨c :: m1, by rw [hm1, List.cons_append], ?_⟩
        intro hmem
        rw [List.mem_cons] at hmem
        rcases hmem with hmem | hmem
        · exact hc hmem.symm
        · exact hn1 hmem
      · exact ih h' l (by rw [hh]; exact List.mem_cons_of_mem _ hl)

/-- Splitting the concatenation of lines that all end in a newline yields the
concatenation of the individual splits. -/
theorem split_flatten_of_endsNL :
    ∀ (O : List Line), (∀ l ∈ O, EndsNL l) →
      splitKeepEnds O.flatten = (O.map splitKeepEnds).flatten := by
  intro O
  induction O with
  | nil => intro _; rfl
  | cons l ls ih =>
    intro h
    rw [List.flatten_cons, splitKeepEnds_append l ls.flatten (h l (List.mem_cons_self _ _)),
      List.map_cons, List.flatten_cons, ih (fun x hx => h x (List.mem_cons_of_mem _ hx))]

/-- Splitting a list of proper lines and flattening again is the identity. -/
theorem map_split_flatten_self :
    ∀ (O : List Line), (∀ l ∈ O, IsNL l) → (O.map splitKeepEnds).flatten = O := by
  intro O
  induction O with
  | nil => intro _; rfl
  | cons l ls ih =>
    intro h
    rw [List.map_cons, List.flatten_cons, split_of_isNL l (h l (List.mem_cons_self _ _)),
      ih (fun x hx => h x (List.mem_cons_of_mem _ hx))]
    rfl

end SplitLemmas

section StripLemmas

/-- A list is always a prefix of itself extended by anything. -/
theorem isPrefixOf_append (xs ys : List Char) : xs.isPrefixOf (xs ++ ys) = true := by
  induction xs with
  | nil => simp
  | cons x xs' ih => simp [List.isPrefixOf_cons₂, ih]

/-- A list is a prefix of itself. -/
theorem isPrefixOf_self (xs : List Char) : xs.isPrefixOf xs = true := by
  have := isPrefixOf_append xs []
  rwa [List.append_nil] at this

/-- Stripping a text that starts with the addons_path tag leaves the tag as a
prefix of the result. -/
theorem pyStrip_apTag_structure (r : List Char) :
    ∃ s, pyStrip (apTag ++ r) = apTag ++ s := by
  have hA : apTag ++ r = 'a' :: ("ddons_path".data ++ r) := by
    rw [show apTag = 'a' :: "ddons_path".data from by decide, List.cons_append]
  have hl : lstripWS (apTag ++ r) = apTag ++ r := by
    rw [hA, lstripWS, List.dropWhile_cons_of_neg (by decide), ← hA]
  rw [pyStrip, hl, rstripWS, List.reverse_append]
  cases hd : r.reverse.dropWhile isWSChar with
  | nil =>
    rw [List.dropWhile_append, hd]
    simp only [List.isEmpty_nil, if_true]
    rw [show List.dropWhile isWSChar apTag.reverse = apTag.reverse from by decide,
      List.reverse_reverse]
    exact ⟨[], (List.append_nil apTag).symm⟩
  | cons z zs =>
    rw [List.dropWhile_append, hd]
    simp only [List.isEmpty_cons, Bool.false_eq_true, if_false]
    rw [List.cons_append, ← List.cons_append z zs apTag.reverse, List.reverse_append,
      List.reverse_reverse]
    exact ⟨(z :: zs).reverse, rfl⟩

/-- A line that starts with the addons_path tag passes the addons-line
test. -/
theorem isAddonsLine_of_apTag_append (r : List Char) :
    isAddonsLine (apTag ++ r) = true := by
  obtain ⟨s, hs⟩ := pyStrip_apTag_structure r
  rw [isAddonsLine, hs]
  exact isPrefixOf_append apTag s

/-- A line that starts with the addons_path tag fails the header test. -/
theorem not_isHeaderLine_of_apTag_append (r : List Char) :
    isHeaderLine (apTag ++ r) = false := by
  obtain ⟨s, hs⟩ := pyStrip_apTag_structure r
  rw [isHeaderLine, hs]
  rw [show apTag ++ s = 'a' :: ("ddons_path".data ++ s) from by
    rw [show apTag = 'a' :: "ddons_path".data from by decide, List.cons_append]]
  rw [show optTag = '[' :: "options]".data from by decide, List.isPrefixOf_cons₂]
  simp

/-- The addons line written by the task is the tag plus a remainder. -/
theorem addonsLine_eq (P : List Line) :
    addonsLine P = apTag ++ (" = ".data ++ joinComma P ++ ['\n']) := by
  rw [addonsLine, show "addons_path = ".data = apTag ++ " = ".data from by decide]
  simp [List.append_assoc]

/-- The new addons line passes the addons-line test. -/
theorem isAddonsLine_addonsLine (P : List Line) : isAddonsLine (addonsLine P) = true := by
  rw [addonsLine_eq]
  exact isAddonsLine_of_apTag_append _

/-- The new addons line fails the header test. -/
theorem not_isHeaderLine_addonsLine (P : List Line) :
    isHeaderLine (addonsLine P) = false := by
  rw [addonsLine_eq]
  exact not_isHeaderLine_of_apTag_append _

/-- Joining newline-free paths with commas stays newline-free. -/
theorem joinComma_no_newline :
    ∀ (P : List Line), (∀ p ∈ P, '\n' ∉ p) → '\n' ∉ joinComma P := by
  intro P
  induction P with
  | nil => intro _ h; simp [joinComma] at h
  | cons p ps ih =>
    intro hP h
    cases ps with
    | nil => exact hP p (List.mem_cons_self _ _) (by simpa [joinComma] using h)
    | cons q ps' =>
      rw [show joinComma (p :: q :: ps') = p ++ ',' :: joinComma (q :: ps') from rfl,
        List.mem_append] at h
      rcases h with h | h
      · exact hP p (List.mem_cons_self _ _) h
      · rw [List.mem_cons] at h
        rcases h with h | h
        · exact absurd h (by decide)
        · exact ih (fun x hx => hP x (List.mem_cons_of_mem _ hx)) h

/-- With newline-free paths the new addons line is a proper line. -/
theorem isNL_addonsLine (P : List Line) (hP : ∀ p ∈ P, '\n' ∉ p) :
    IsNL (addonsLine P) := by
  refine ⟨"addons_path = ".data ++ joinComma P, by
    simp [addonsLine, List.append_assoc], ?_⟩
  intro hmem
  rw [List.mem_append] at hmem
  rcases hmem with h | h
  · exact absurd h (by decide)
  · exact joinComma_no_newline P hP h

end StripLemmas

section ScanLemmas

/-- Unfolding of the update loop over a cons cell. -/
theorem scanConf_cons (n line : Line) (inOpt : Bool) (rest : List Line) :
    scanConf n inOpt (line :: rest)
      = if isHeaderLine line then
          (line :: (scanConf n true rest).1, (scanConf n true rest).2)
        else if inOpt && isAddonsLine line then
          (n :: (scanConf n true rest).1, true)
        else if inOpt && isSectionLine line then
          (line :: (scanConf n false rest).1, (scanConf n false rest).2)
        else (line :: (scanConf n inOpt rest).1, (scanConf n inOpt rest).2) := rfl

/-- Unfolding of the state tracker over a cons cell. -/
theorem optState_cons (line : Line) (inOpt : Bool) (rest : List Line) :
    optState inOpt (line :: rest)
      = if isHeaderLine line then optState true rest
        else if inOpt && isAddonsLine line then optState true rest
        else if inOpt && isSectionLine line then optState false rest
        else optState inOpt rest := rfl

/-- Unfolding of the insertion fallback over a cons cell. -/
theorem insertAfterOptions_cons (n line : Line) (rest : List Line) :
    insertAfterOptions n (line :: rest)
      = if isHeaderLine line then (line :: n :: rest, true)
        else (line :: (insertAfterOptions n rest).1, (insertAfterOptions n rest).2) := rfl

/-- Unfolding of the replacement flags over a cons cell. -/
theorem replFlags_cons (line : Line) (inOpt : Bool) (rest : List Line) :
    replFlags inOpt (line :: rest)
      = if isHeaderLine line then false :: replFlags true rest
        else if inOpt && isAddonsLine line then true :: replFlags true rest
        else if inOpt && isSectionLine line then false :: replFlags false rest
        else false :: replFlags inOpt rest := rfl

/-- The update loop output is the original lines with the flagged positions
substituted, and it reports a substitution exactly when some flag is set. -/
theorem scanConf_eq_applyFlags (n : Line) :
    ∀ (lines : List Line) (inOpt : Bool),
      scanConf n inOpt lines
        = (applyFlags n lines (replFlags inOpt lines),
           (replFlags inOpt lines).any id) := by
  intro lines
  induction lines with
  | nil => intro inOpt; rfl
  | cons line rest ih =>
    intro inOpt
    rw [scanConf_cons, replFlags_cons]
    by_cases h1 : isHeaderLine line = true
    · rw [if_pos h1, if_pos h1, ih true]
      simp [applyFlags]
    · rw [if_neg h1, if_neg h1]
      by_cases h2 : (inOpt && isAddonsLine line) = true
      · rw [if_pos h2, if_pos h2, ih true]
        simp [applyFlags]
      · rw [if_neg h2, if_neg h2]
        by_cases h3 : (inOpt && isSectionLine line) = true
        · rw [if_pos h3, if_pos h3, ih false]
          simp [applyFlags]
        · rw [if_neg h3, if_neg h3, ih inOpt]
          simp [applyFlags]

/-- If the loop reports no substitution, its output is the input. -/
theorem scanConf_not_updated (n : Line) :
    ∀ (lines : List Line) (inOpt : Bool),
      (scanConf n inOpt lines).2 = false → (scanConf n inOpt lines).1 = lines := by
  intro lines
  induction lines with
  | nil => intro inOpt _; rfl
  | cons line rest ih =>
    intro inOpt h
    rw [scanConf_cons] at h ⊢
    by_cases h1 : isHeaderLine line = true
    · rw [if_pos h1] at h ⊢
      rw [ih true h]
    · rw [if_neg h1] at h ⊢
      by_cases h2 : (inOpt && isAddonsLine line) = true
      · rw [if_pos h2] at h
        cases h
      · rw [if_neg h2] at h ⊢
        by_cases h3 : (inOpt && isSectionLine line) = true
        · rw [if_pos h3] at h ⊢
          rw [ih false h]
        · rw [if_neg h3] at h ⊢
          rw [ih inOpt h]

/-- Rescanning the output of the update loop changes nothing: the substituted
line passes the addons test and fails the header test, so it is replaced by
itself again. -/
theorem scanConf_fixpoint (n : Line) (hn1 : isAddonsLine n = true)
    (hn2 : isHeaderLine n = false) :
    ∀ (lines : List Line) (inOpt : Bool),
      scanConf n inOpt ((scanConf n inOpt lines).1) = scanConf n inOpt lines := by
  intro lines
  induction lines with
  | nil => intro inOpt; rfl
  | cons line rest ih =>
    intro inOpt
    rw [scanConf_cons]
    by_cases h1 : isHeaderLine line = true
    · rw [if_pos h1, scanConf_cons, if_pos h1, ih true]
    · rw [if_neg h1]
      by_cases h2 : (inOpt && isAddonsLine line) = true
      · have hOpt : inOpt = true := (Bool.and_eq_true _ _ |>.mp h2).1
        rw [if_pos h2, scanConf_cons, if_neg (by rw [hn2]; simp),
          if_pos (by rw [hOpt, hn1]; rfl), ih true]
      · rw [if_neg h2]
        by_cases h3 : (inOpt && isSectionLine line) = true
        · rw [if_pos h3, scanConf_cons, if_neg h1, if_neg h2, if_pos h3, ih false]
        · rw [if_neg h3, scanConf_cons, if_neg h1, if_neg h2, if_neg h3, ih inOpt]

/-- The update loop over an appended list splits into the loop over the first
part and the loop over the second part started in the resulting state. -/
theorem scanConf_append (n : Line) :
    ∀ (xs ys : List Line) (inOpt : Bool),
      scanConf n inOpt (xs ++ ys)
        = ((scanConf n inOpt xs).1 ++ (scanConf n (optState inOpt xs) ys).1,
           ((scanConf n inOpt xs).2 || (scanConf n (optState inOpt xs) ys).2)) := by
  intro xs
  induction xs with
  | nil => intro ys inOpt; simp [scanConf, optState]
  | cons x xs' ih =>
    intro ys inOpt
    rw [List.cons_append, scanConf_cons, scanConf_cons n x inOpt xs', optState_cons]
    by_cases h1 : isHeaderLine x = true
    · rw [if_pos h1, if_pos h1, if_pos h1, ih ys true]
      simp
    · rw [if_neg h1, if_neg h1, if_neg h1]
      by_cases h2 : (inOpt && isAddonsLine x) = true
      · rw [if_pos h2, if_pos h2, if_pos h2, ih ys true]
        simp
      · rw [if_neg h2, if_neg h2, if_neg h2]
        by_cases h3 : (inOpt && isSectionLine x) = true
        · rw [if_pos h3, if_pos h3, if_pos h3, ih ys false]
          simp
        · rw [if_neg h3, if_neg h3, if_neg h3, ih ys inOpt]
          simp

/-- Outside the options section and with no header line present, the loop
copies everything, substitutes nothing and stays outside. -/
theorem scanConf_no_header (n : Line) :
    ∀ (lines : List Line), (∀ l ∈ lines, isHeaderLine l = false) →
      scanConf n false lines = (lines, false) ∧ optState false lines = false := by
  intro lines
  induction lines with
  | nil => intro _; exact ⟨rfl, rfl⟩
  | cons line rest ih =>
    intro h
    have h1 : isHeaderLine line = false := h line (List.mem_cons_self _ _)
    have ih' := ih (fun l hl => h l (List.mem_cons_of_mem _ hl))
    have hh : ¬ isHeaderLine line = true := by rw [h1]; simp
    have ha : ¬ ((false && isAddonsLine line) = true) := by simp
    have hs : ¬ ((false && isSectionLine line) = true) := by simp
    constructor
    · rw [scanConf_cons, if_neg hh, if_neg ha, if_neg hs, ih'.1]
    · rw [optState_cons, if_neg hh, if_neg ha, if_neg hs]
      exact ih'.2

/-- When the insertion fallback reports success, the list decomposes into a
header-free part, the first header line, and the rest, with the new line
inserted right after the header. -/
theorem insertAfterOptions_found (n : Line) :
    ∀ (ls : List Line), (insertAfterOptions n ls).2 = true →
      ∃ A h B, ls = A ++ h :: B
        ∧ (insertAfterOptions n ls).1 = A ++ h :: n :: B
        ∧ (∀ a ∈ A, isHeaderLine a = false)
        ∧ isHeaderLine h = true := by
  intro ls
  induction ls with
  | nil => intro h; cases h
  | cons line rest ih =>
    intro hf
    by_cases h1 : isHeaderLine line = true
    · exact ⟨[], line, rest, rfl,
        by rw [insertAfterOptions_cons, if_pos h1]; rfl, by simp, h1⟩
    · rw [insertAfterOptions_cons, if_neg h1] at hf
      obtain ⟨A, h, B, e1, e2, e3, e4⟩ := ih hf
      refine ⟨line :: A, h, B, by rw [e1, List.cons_append], ?_, ?_, e4⟩
      · rw [insertAfterOptions_cons, if_neg h1, e2, List.cons_append]
      · intro a ha
        rw [List.mem_cons] at ha
        rcases ha with ha | ha
        · rw [ha]
          cases h2 : isHeaderLine line
          · rfl
          · exact absurd h2 h1
        · exact e3 a ha

/-- When the insertion fallback reports failure, the list is unchanged and no
line passes the header test. -/
theorem insertAfterOptions_not_found (n : Line) :
    ∀ (ls : List Line), (insertAfterOptions n ls).2 = false →
      (insertAfterOptions n ls).1 = ls ∧ ∀ l ∈ ls, isHeaderLine l = false := by
  intro ls
  induction ls with
  | nil => intro _; exact ⟨rfl, by simp⟩
  | cons line rest ih =>
    intro hf
    by_cases h1 : isHeaderLine line = true
    · rw [insertAfterOptions_cons, if_pos h1] at hf
      cases hf
    · rw [insertAfterOptions_cons, if_neg h1] at hf ⊢
      obtain ⟨e1, e2⟩ := ih hf
      refine ⟨by rw [e1], ?_⟩
      intro l hl
      rw [List.mem_cons] at hl
      rcases hl with hl | hl
      · rw [hl]
        cases h2 : isHeaderLine line
        · rfl
        · exact absurd h2 h1
      · exact e2 l hl

/-- Every line of the update loop output is an original line or the new
line. -/
theorem mem_scanConf (n : Line) :
    ∀ (lines : List Line) (inOpt : Bool) (l : Line),
      l ∈ (scanConf n inOpt lines).1 → l ∈ lines ∨ l = n := by
  intro lines
  induction lines with
  | nil => intro inOpt l h; cases h
  | cons line rest ih =>
    intro inOpt l h
    rw [scanConf_cons] at h
    by_cases h1 : isHeaderLine line = true
    · rw [if_pos h1, List.mem_cons] at h
      rcases h with h | h
      · exact Or.inl (by rw [h]; exact List.mem_cons_self _ _)
      · rcases ih true l h with h | h
        · exact Or.inl (List.mem_cons_of_mem _ h)
        · exact Or.inr h
    · rw [if_neg h1] at h
      by_cases h2 : (inOpt && isAddonsLine line) = true
      · rw [if_pos h2, List.mem_cons] at h
        rcases h with h | h
        · exact Or.inr h
        · rcases ih true l h with h | h
          · exact Or.inl (List.mem_cons_of_mem _ h)
          · exact Or.inr h
      · rw [if_neg h2] at h
        by_cases h3 : (inOpt && isSectionLine line) = true
        · rw [if_pos h3, List.mem_cons] at h
          rcases h with h | h
          · exact Or.inl (by rw [h]; exact List.mem_cons_self _ _)
          · rcases ih false l h with h | h
            · exact Or.inl (List.mem_cons_of_mem _ h)
            · exact Or.inr h
        · rw [if_neg h3, List.mem_cons] at h
          rcases h with h | h
          · exact Or.inl (by rw [h]; exact List.mem_cons_self _ _)
          · rcases ih inOpt l h with h | h
            · exact Or.inl (List.mem_cons_of_mem _ h)
            · exact Or.inr h

end ScanLemmas

section PatchLemmas

/-- Unfolding of the full rewrite. -/
theorem patchConfLines_def (n : Line) (lines : List Line) :
    patchConfLines n lines
      = if (scanConf n false lines).2 then (scanConf n false lines).1
        else if (insertAfterOptions n (scanConf n false lines).1).2 then
          (insertAfterOptions n (scanConf n false lines).1).1
        else (scanConf n false lines).1 ++ [optionsBlock, n] := rfl

/-- A proper line in particular ends with a newline. -/
theorem endsNL_of_isNL {l : Line} (h : IsNL l) : EndsNL l := by
  obtain ⟨m, hm, _⟩ := h
  exact ⟨m, hm⟩

/-- Every line of the insertion fallback output is an original line or the
new line. -/
theorem mem_insertAfterOptions (n : Line) :
    ∀ (ls : List Line) (l : Line),
      l ∈ (insertAfterOptions n ls).1 → l ∈ ls ∨ l = n := by
  intro ls
  induction ls with
  | nil => intro l h; cases h
  | cons line rest ih =>
    intro l h
    by_cases h1 : isHeaderLine line = true
    · rw [insertAfterOptions_cons, if_pos h1] at h
      have h' : l ∈ line :: n :: rest := h
      rw [List.mem_cons, List.mem_cons] at h'
      rcases h' with h' | h' | h'
      · exact Or.inl (by rw [h']; exact List.mem_cons_self _ _)
      · exact Or.inr h'
      · exact Or.inl (List.mem_cons_of_mem _ h')
    · rw [insertAfterOptions_cons, if_neg h1, List.mem_cons] at h
      rcases h with h | h
      · exact Or.inl (by rw [h]; exact List.mem_cons_self _ _)
      · rcases ih l h with h | h
        · exact Or.inl (List.mem_cons_of_mem _ h)
        · exact Or.inr h

/-- When the loop substituted something, the rewrite is the loop output and
rescanning it substitutes again, changing nothing. -/
theorem patchConfLines_rescan_updated (n : Line) (hn1 : isAddonsLine n = true)
    (hn2 : isHeaderLine n = false) (lines : List Line)
    (hu : (scanConf n false lines).2 = true) :
    patchConfLines n lines = (scanConf n false lines).1
    ∧ scanConf n false (patchConfLines n lines) = (patchConfLines n lines, true) := by
  have hout : patchConfLines n lines = (scanConf n false lines).1 := by
    rw [patchConfLines_def, if_pos hu]
  refine ⟨hout, ?_⟩
  rw [hout, scanConf_fixpoint n hn1 hn2 lines false, ← hu]

/-- When nothing was substituted but a header exists, the rewrite is the
insertion output, and rescanning it substitutes the inserted line by itself. -/
theorem patchConfLines_rescan_inserted (n : Line) (hn1 : isAddonsLine n = true)
    (hn2 : isHeaderLine n = false) (lines : List Line)
    (hu : (scanConf n false lines).2 = false)
    (hf : (insertAfterOptions n lines).2 = true) :
    patchConfLines n lines = (insertAfterOptions n lines).1
    ∧ scanConf n false (patchConfLines n lines) = (patchConfLines n lines, true) := by
  have hO : (scanConf n false lines).1 = lines := scanConf_not_updated n lines false hu
  have hout : patchConfLines n lines = (insertAfterOptions n lines).1 := by
    rw [patchConfLines_def, if_neg (by simp [hu]), hO, if_pos hf]
  refine ⟨hout, ?_⟩
  obtain ⟨A, h, B, e1, e2, e3, e4⟩ := insertAfterOptions_found n lines hf
  have hnohA := scanConf_no_header n A e3
  have hBfalse : (scanConf n true B).2 = false := by
    rw [e1, scanConf_append, hnohA.1, hnohA.2] at hu
    simp only [Prod.snd] at hu
    rw [scanConf_cons, if_pos e4] at hu
    simpa using hu
  have hB1 : (scanConf n true B).1 = B := scanConf_not_updated n B true hBfalse
  have sn : scanConf n true (n :: B) = (n :: B, true) := by
    rw [scanConf_cons, if_neg (by rw [hn2]; simp), if_pos (by rw [hn1]; rfl), hB1]
  have sh : scanConf n false (h :: n :: B) = (h :: n :: B, true) := by
    rw [scanConf_cons, if_pos e4, sn]
  rw [hout, e2, scanConf_append, hnohA.1, hnohA.2, sh]
  simp

/-- Once the rewrite output rescans to itself with the updated flag set and is
made of proper lines, patching its text again is the identity. -/
theorem patch_text_stable (n : Line) (lines : List Line)
    (hres : scanConf n false (patchConfLines n lines)
      = (patchConfLines n lines, true))
    (hmem : ∀ l ∈ patchConfLines n lines, IsNL l) :
    (patchConfLines n (splitKeepEnds (patchConfLines n lines).flatten)).flatten
      = (patchConfLines n lines).flatten := by
  have hL2 : splitKeepEnds (patchConfLines n lines).flatten = patchConfLines n lines := by
    rw [split_flatten_of_endsNL _ (fun l hl => endsNL_of_isNL (hmem l hl)),
      map_split_flatten_self _ hmem]
  rw [hL2]
  have hfix : patchConfLines n (patchConfLines n lines) = patchConfLines n lines := by
    rw [patchConfLines_def n (patchConfLines n lines), hres]
    simp
  rw [hfix]

/-- Splitting the appended options block yields its two lines. -/
theorem split_optionsBlock :
    splitKeepEnds optionsBlock = [['\n'], "[options]\n".data] := by decide

/-- The appended options block is the blank line plus the header line. -/
theorem optionsBlock_decomp : optionsBlock = ['\n'] ++ "[options]\n".data := by decide

/-- The appended options block ends with a newline. -/
theorem endsNL_optionsBlock : EndsNL optionsBlock :=
  ⟨"\n[options]".data, by decide⟩

/-- The header line of the appended block is a proper line. -/
theorem isNL_headerLine : IsNL ("[options]\n".data) :=
  ⟨"[options]".data, by decide, by decide⟩

end PatchLemmas

/-- C1 counterexample: on the one-line document holding just the options
header with no trailing newline, patching twice differs from patching once,
because the inserted line glues onto the header line and re-reads as a single
header line on the second run. -/
theorem patchAddonsPath_not_idempotent :
    patchAddonsPath (patchAddonsPath "[options]".data ["/a".data]) ["/a".data]
      ≠ patchAddonsPath "[options]".data ["/a".data] := by decide

/-- C1 amended: patchAddonsPath is idempotent for every input text that is
empty or ends with a newline and every path list whose entries contain no
newline character. -/
theorem patchAddonsPath_idem (text : List Char) (P : List Line)
    (ht : text = [] ∨ EndsNL text) (hP : ∀ p ∈ P, '\n' ∉ p) :
    patchAddonsPath (patchAddonsPath text P) P = patchAddonsPath text P := by
  have hn1 := isAddonsLine_addonsLine P
  have hn2 := not_isHeaderLine_addonsLine P
  have hnNL : IsNL (addonsLine P) := isNL_addonsLine P hP
  have hNL1 : ∀ l ∈ splitKeepEnds text, IsNL l := by
    rcases ht with ht | ht
    · rw [ht]; intro l hl; simp [splitKeepEnds] at hl
    · exact isNL_of_mem_split text ht
  simp only [patchAddonsPath]
  by_cases hu : (scanConf (addonsLine P) false (splitKeepEnds text)).2 = true
  · obtain ⟨hout, hres⟩ :=
      patchConfLines_rescan_updated (addonsLine P) hn1 hn2 (splitKeepEnds text) hu
    refine patch_text_stable (addonsLine P) (splitKeepEnds text) hres ?_
    intro l hl
    rw [hout] at hl
    rcases mem_scanConf (addonsLine P) (splitKeepEnds text) false l hl with h | h
    · exact hNL1 l h
    · rw [h]; exact hnNL
  · have hu' : (scanConf (addonsLine P) false (splitKeepEnds text)).2 = false := by
      revert hu
      cases (scanConf (addonsLine P) false (splitKeepEnds text)).2 <;> simp
    by_cases hf : (insertAfterOptions (addonsLine P) (splitKeepEnds text)).2 = true
    · obtain ⟨hout, hres⟩ :=
        patchConfLines_rescan_inserted (addonsLine P) hn1 hn2 (splitKeepEnds text) hu' hf
      refine patch_text_stable (addonsLine P) (splitKeepEnds text) hres ?_
      intro l hl
      rw [hout] at hl
      rcases mem_insertAfterOptions (addonsLine P) (splitKeepEnds text) l hl with h | h
      · exact hNL1 l h
      · rw [h]; exact hnNL
    · have hf' : (insertAfterOptions (addonsLine P) (splitKeepEnds text)).2 = false := by
        revert hf
        cases (insertAfterOptions (addonsLine P) (splitKeepEnds text)).2 <;> simp
      have hO : (scanConf (addonsLine P) false (splitKeepEnds text)).1 = splitKeepEnds text :=
        scanConf_not_updated _ _ _ hu'
      obtain ⟨hins1, hnoh⟩ := insertAfterOptions_not_found (addonsLine P) (splitKeepEnds text) hf'
      have hOut : patchConfLines (addonsLine P) (splitKeepEnds text)
          = splitKeepEnds text ++ [optionsBlock, addonsLine P] := by
        rw [patchConfLines_def, if_neg (by simp [hu']), hO, if_neg (by simp [hf'])]
      have hEnds : ∀ l ∈ splitKeepEnds text ++ [optionsBlock, addonsLine P], EndsNL l := by
        intro l hl
        rw [List.mem_append] at hl
        rcases hl with h | h
        · exact endsNL_of_isNL (hNL1 l h)
        · rw [List.mem_cons, List.mem_cons] at h
          rcases h with h | h | h
          · rw [h]; exact endsNL_optionsBlock
          · rw [h]; exact endsNL_of_isNL hnNL
          · cases h
      have hL2 : splitKeepEnds (splitKeepEnds text ++ [optionsBlock, addonsLine P]).flatten
          = splitKeepEnds text ++ [['\n'], "[options]\n".data, addonsLine P] := by
        rw [split_flatten_of_endsNL _ hEnds, List.map_append, List.flatten_append,
          map_split_flatten_self _ hNL1, List.map_cons, List.map_cons, List.map_nil,
          split_optionsBlock, split_of_isNL _ hnNL]
        rfl
      have s1 : scanConf (addonsLine P) true [addonsLine P] = ([addonsLine P], true) := by
        rw [scanConf_cons, if_neg (by rw [hn2]; simp), if_pos (by rw [hn1]; rfl)]
        rfl
      have s2 : scanConf (addonsLine P) false ["[options]\n".data, addonsLine P]
          = (["[options]\n".data, addonsLine P], true) := by
        rw [scanConf_cons, if_pos (by decide), s1]
      have s3 : scanConf (addonsLine P) false [['\n'], "[options]\n".data, addonsLine P]
          = ([['\n'], "[options]\n".data, addonsLine P], true) := by
        rw [scanConf_cons, if_neg (by decide), if_neg (by simp), if_neg (by simp), s2]
      have hnohA := scanConf_no_header (addonsLine P) (splitKeepEnds text) hnoh
      have hscan : scanConf (addonsLine P) false
            (splitKeepEnds text ++ [['\n'], "[options]\n".data, addonsLine P])
          = (splitKeepEnds text ++ [['\n'], "[options]\n".data, addonsLine P], true) := by
        rw [scanConf_append, hnohA.1, hnohA.2, s3]
        simp
      have hfix : patchConfLines (addonsLine P)
            (splitKeepEnds text ++ [['\n'], "[options]\n".data, addonsLine P])
          = splitKeepEnds text ++ [['\n'], "[options]\n".data, addonsLine P] := by
        rw [patchConfLines_def, hscan]
        simp
      rw [hOut, hL2, hfix, List.flatten_append, List.flatten_append]
      simp [optionsBlock_decomp, List.append_assoc]

/-- Witness for the amended C1 theorem on a concrete document ending in a
newline. -/
theorem patchAddonsPath_idem_witness :
    patchAddonsPath (patchAddonsPath "[options]\naddons_path = /old\n".data ["/a".data])
        ["/a".data]
      = patchAddonsPath "[options]\naddons_path = /old\n".data ["/a".data] :=
  patchAddonsPath_idem "[options]\naddons_path = /old\n".data ["/a".data]
    (Or.inr ⟨"[options]\naddons_path = /old".data, by decide⟩)
    (by intro p hp; rw [List.mem_cons] at hp; rcases hp with hp | hp
        · rw [hp]; decide
        · cases hp)

/-- A line passing the addons test starts with a letter after stripping, so
it fails the header test. -/
theorem not_header_of_isAddonsLine {l : Line} (h : isAddonsLine l = true) :
    isHeaderLine l = false := by
  rw [isAddonsLine] at h
  rw [isHeaderLine]
  cases hs : pyStrip l with
  | nil =>
    rw [hs] at h
    exact absurd h (by decide)
  | cons c cs =>
    rw [hs] at h
    rw [show apTag = 'a' :: "ddons_path".data from by decide, List.isPrefixOf_cons₂] at h
    have hc : c = 'a' := (eq_of_beq (Bool.and_eq_true _ _ |>.mp h).1).symm
    rw [show optTag = '[' :: "options]".data from by decide, List.isPrefixOf_cons₂, hc,
      show (('[' : Char) == 'a') = false from by decide]
    simp

/-- C3 counterexample: with two addons_path lines inside the options section,
the patcher rewrites both to the new line; the output is not the one the
first-only policy would give. -/
theorem patch_replaces_all_counterexample :
    patchAddonsPath "[options]\naddons_path = /x\naddons_path = /y\n".data ["/a".data]
        = "[options]\naddons_path = /a\naddons_path = /a\n".data
    ∧ patchAddonsPath "[options]\naddons_path = /x\naddons_path = /y\n".data ["/a".data]
        ≠ "[options]\naddons_path = /a\naddons_path = /y\n".data := by
  exact ⟨by decide, by decide⟩

/-- C3 amended: inside the options section the update loop replaces every
line whose stripped form starts with addons_path, not only the first one. -/
theorem patch_replaces_every_addons_line (n a b : Line)
    (ha : isAddonsLine a = true) (hb : isAddonsLine b = true) :
    patchConfLines n ["[options]\n".data, a, b] = ["[options]\n".data, n, n] := by
  have sb : scanConf n true [b] = ([n], true) := by
    rw [scanConf_cons, if_neg (by rw [not_header_of_isAddonsLine hb]; simp),
      if_pos (by rw [hb]; rfl)]
    rfl
  have sa : scanConf n true [a, b] = ([n, n], true) := by
    rw [scanConf_cons, if_neg (by rw [not_header_of_isAddonsLine ha]; simp),
      if_pos (by rw [ha]; rfl), sb]
  have sh : scanConf n false ["[options]\n".data, a, b]
      = (["[options]\n".data, n, n], true) := by
    rw [scanConf_cons, if_pos (by decide), sa]
  rw [patchConfLines_def, sh]
  simp

/-- Witness for the amended C3 theorem on two concrete addons_path lines. -/
theorem patch_replaces_every_addons_line_witness :
    patchConfLines "addons_path = /a\n".data
        ["[options]\n".data, "addons_path = /x\n".data, "addons_path=/y\n".data]
      = ["[options]\n".data, "addons_path = /a\n".data, "addons_path = /a\n".data] :=
  patch_replaces_every_addons_line "addons_path = /a\n".data
    "addons_path = /x\n".data "addons_path=/y\n".data (by decide) (by decide)

/-- C9: on the empty document the patch produces exactly the appended options
block and the joined addons line; the result holds one header line and one
addons_path line. -/
theorem patch_empty_doc :
    patchAddonsPath [] ["/a".data, "/b".data] = "\n[options]\naddons_path = /a,/b\n".data
    ∧ (splitKeepEnds (patchAddonsPath [] ["/a".data, "/b".data])).countP
        (fun l => isHeaderLine l) = 1
    ∧ (splitKeepEnds (patchAddonsPath [] ["/a".data, "/b".data])).countP
        (fun l => isAddonsLine l) = 1 := by
  exact ⟨by decide, by decide, by decide⟩

/-- C10 counterexample: a line reading options_dev inside brackets does not
start with the options tag, so it is not treated as the section header: the
addons_path line below it is left alone and a fresh options block is
appended. -/
theorem options_dev_not_header :
    isHeaderLine "[options_dev]\n".data = false
    ∧ patchAddonsPath "[options_dev]\naddons_path = /x\n".data ["/a".data]
        = "[options_dev]\naddons_path = /x\n\n[options]\naddons_path = /a\n".data := by
  exact ⟨by decide, by decide⟩

/-- C10 amended: recognition is prefix-based on the stripped line: any line
whose stripped form starts with the options tag acts as the section header
both in the scan and in the insertion fallback, and any line below it whose
stripped form starts with addons_path, such as a distinct key
addons_path_extra, is replaced by the new line. -/
theorem prefix_based_recognition (h a n : Line)
    (hh : isHeaderLine h = true) (ha : isAddonsLine a = true) :
    patchConfLines n [h, a] = [h, n] ∧ patchConfLines n [h] = [h, n] := by
  constructor
  · have sa : scanConf n true [a] = ([n], true) := by
      rw [scanConf_cons, if_neg (by rw [not_header_of_isAddonsLine ha]; simp),
        if_pos (by rw [ha]; rfl)]
      rfl
    have sh : scanConf n false [h, a] = ([h, n], true) := by
      rw [scanConf_cons, if_pos hh, sa]
    rw [patchConfLines_def, sh]
    simp
  · have sh : scanConf n false [h] = ([h], false) := by
      rw [scanConf_cons, if_pos hh]
      rfl
    have hins : insertAfterOptions n [h] = ([h, n], true) := by
      rw [insertAfterOptions_cons, if_pos hh]
    rw [patchConfLines_def, sh]
    simp [hins]

/-- Witness for the amended C10 theorem on a commented header line and an
addons_path_extra key. -/
theorem prefix_based_recognition_witness :
    patchConfLines "addons_path = /a\n".data
        ["[options] # comment\n".data, "addons_path_extra = x\n".data]
      = ["[options] # comment\n".data, "addons_path = /a\n".data]
    ∧ patchConfLines "addons_path = /a\n".data ["[options] # comment\n".data]
      = ["[options] # comment\n".data, "addons_path = /a\n".data] :=
  prefix_based_recognition "[options] # comment\n".data "addons_path_extra = x\n".data
    "addons_path = /a\n".data (by decide) (by decide)

section FrameLemmas

/-- Taking up to and past the marked element of a decomposed list. -/
theorem take_drop_append_cons (h : Line) (B : List Line) :
    ∀ (A : List Line),
      (A ++ h :: B).take (A.length + 1) = A ++ [h]
      ∧ (A ++ h :: B).drop (A.length + 1) = B := by
  intro A
  induction A with
  | nil => simp
  | cons a A' ih =>
    rw [List.cons_append, List.length_cons]
    constructor
    · rw [List.take_succ_cons, ih.1, List.cons_append]
    · rw [List.drop_succ_cons, ih.2]

/-- At an unflagged position the substitution keeps the original line. -/
theorem applyFlags_get_false (n : Line) :
    ∀ (lines : List Line) (flags : List Bool) (i : Nat),
      flags[i]? = some false → (applyFlags n lines flags)[i]? = lines[i]? := by
  intro lines
  induction lines with
  | nil => intro flags i h; simp [applyFlags]
  | cons l ls ih =>
    intro flags i h
    cases flags with
    | nil => simp at h
    | cons f fs =>
      cases i with
      | zero =>
        simp only [List.getElem?_cons_zero, Option.some.injEq] at h
        simp [applyFlags, h]
      | succ j =>
        rw [List.getElem?_cons_succ] at h
        rw [applyFlags, List.zipWith_cons_cons, List.getElem?_cons_succ,
          List.getElem?_cons_succ]
        exact ih fs j h

/-- A flagged position holds a line whose stripped form starts with the
addons_path tag. -/
theorem replFlags_get_true :
    ∀ (lines : List Line) (inOpt : Bool) (i : Nat),
      (replFlags inOpt lines)[i]? = some true →
      ∃ l, lines[i]? = some l ∧ isAddonsLine l = true := by
  intro lines
  induction lines with
  | nil => intro inOpt i h; simp [replFlags] at h
  | cons line rest ih =>
    intro inOpt i h
    rw [replFlags_cons] at h
    by_cases h1 : isHeaderLine line = true
    · rw [if_pos h1] at h
      cases i with
      | zero => simp at h
      | succ j =>
        rw [List.getElem?_cons_succ] at h
        obtain ⟨l, hl, ha⟩ := ih true j h
        exact ⟨l, by rw [List.getElem?_cons_succ]; exact hl, ha⟩
    · rw [if_neg h1] at h
      by_cases h2 : (inOpt && isAddonsLine line) = true
      · rw [if_pos h2] at h
        cases i with
        | zero => exact ⟨line, by simp, (Bool.and_eq_true _ _ |>.mp h2).2⟩
        | succ j =>
          rw [List.getElem?_cons_succ] at h
          obtain ⟨l, hl, ha⟩ := ih true j h
          exact ⟨l, by rw [List.getElem?_cons_succ]; exact hl, ha⟩
      · rw [if_neg h2] at h
        by_cases h3 : (inOpt && isSectionLine line) = true
        · rw [if_pos h3] at h
          cases i with
          | zero => simp at h
          | succ j =>
            rw [List.getElem?_cons_succ] at h
            obtain ⟨l, hl, ha⟩ := ih false j h
            exact ⟨l, by rw [List.getElem?_cons_succ]; exact hl, ha⟩
        · rw [if_neg h3] at h
          cases i with
          | zero => simp at h
          | succ j =>
            rw [List.getElem?_cons_succ] at h
            obtain ⟨l, hl, ha⟩ := ih inOpt j h
            exact ⟨l, by rw [List.getElem?_cons_succ]; exact hl, ha⟩

end FrameLemmas

/-- C5: the patch never reorders or alters any other line. When a
substitution happens, the output is exactly the input with the flagged lines
replaced; otherwise the output is the input with the new line purely inserted
at one position, or with the options block appended. Unflagged positions keep
their original line, and every flagged position held an addons_path line
inside the options section. -/
theorem patchConf_frame (n : Line) (lines : List Line) :
    ((replFlags false lines).any id = true →
        patchConfLines n lines = applyFlags n lines (replFlags false lines))
    ∧ ((replFlags false lines).any id = false →
        (∃ k, patchConfLines n lines = lines.take k ++ n :: lines.drop k)
        ∨ patchConfLines n lines = lines ++ [optionsBlock, n])
    ∧ (∀ i : Nat, (replFlags false lines)[i]? = some false →
        (applyFlags n lines (replFlags false lines))[i]? = lines[i]?)
    ∧ (∀ i : Nat, (replFlags false lines)[i]? = some true →
        ∃ l, lines[i]? = some l ∧ isAddonsLine l = true) := by
  refine ⟨?_, ?_, ?_, ?_⟩
  · intro hany
    have hscan := scanConf_eq_applyFlags n lines false
    have hu : (scanConf n false lines).2 = true := by rw [hscan]; exact hany
    rw [patchConfLines_def, if_pos hu, hscan]
  · intro hany
    have hscan := scanConf_eq_applyFlags n lines false
    have hu : (scanConf n false lines).2 = false := by rw [hscan]; exact hany
    have hO : (scanConf n false lines).1 = lines := scanConf_not_updated n lines false hu
    by_cases hf : (insertAfterOptions n lines).2 = true
    · left
      obtain ⟨A, h, B, e1, e2, e3, e4⟩ := insertAfterOptions_found n lines hf
      refine ⟨A.length + 1, ?_⟩
      rw [patchConfLines_def, if_neg (by simp [hu]), hO, if_pos hf, e2, e1,
        (take_drop_append_cons h B A).1, (take_drop_append_cons h B A).2]
      simp
    · right
      have hf' : (insertAfterOptions n lines).2 = false := by
        revert hf
        cases (insertAfterOptions n lines).2 <;> simp
      rw [patchConfLines_def, if_neg (by simp [hu]), hO, if_neg (by simp [hf'])]
  · exact fun i => applyFlags_get_false n lines (replFlags false lines) i
  · exact fun i => replFlags_get_true lines false i

/-- Witness for the C5 frame theorem on a concrete three-line document. -/
theorem patchConf_frame_witness :
    patchConfLines "addons_path = /a\n".data
        ["[options]\n".data, "addons_path = /x\n".data, "other = 1\n".data]
      = applyFlags "addons_path = /a\n".data
          ["[options]\n".data, "addons_path = /x\n".data, "other = 1\n".data]
          (replFlags false
            ["[options]\n".data, "addons_path = /x\n".data, "other = 1\n".data])
    ∧ (applyFlags "addons_path = /a\n".data
          ["[options]\n".data, "addons_path = /x\n".data, "other = 1\n".data]
          (replFlags false
            ["[options]\n".data, "addons_path = /x\n".data, "other = 1\n".data]))[2]?
        = (["[options]\n".data, "addons_path = /x\n".data, "other = 1\n".data]
            : List Line)[2]?
    ∧ ∃ l, (["[options]\n".data, "addons_path = /x\n".data, "other = 1\n".data]
            : List Line)[1]? = some l ∧ isAddonsLine l = true :=
  ⟨(patchConf_frame "addons_path = /a\n".data
      ["[options]\n".data, "addons_path = /x\n".data, "other = 1\n".data]).1 (by decide),
   (patchConf_frame "addons_path = /a\n".data
      ["[options]\n".data, "addons_path = /x\n".data, "other = 1\n".data]).2.2.1 2
        (by decide),
   (patchConf_frame "addons_path = /a\n".data
      ["[options]\n".data, "addons_path = /x\n".data, "other = 1\n".data]).2.2.2 1
        (by decide)⟩

/-- Witness for the C6 theorem: with the core path listed among the repos,
the returned extra-repos list omits it. -/
theorem validRepos_no_core_witness :
    "/odoo" ∉ validRepos fsAll "/r" "/odoo" [] ["/x", "/odoo"] :=
  validRepos_no_core fsAll "/r" "/odoo" ["/x", "/odoo"] []
